import Mathlib

/-!
Verification of `qlbm_mcgill/error_mitigator.py` against its specification.

The Python module is shallowly embedded: pure computations become Lean
functions over `ℚ`/`ℤ`/`ℕ`, histograms become association lists
`List (String × _)` (Python dicts preserve insertion order), Python's
`int(...)` truncation toward zero becomes `pyInt`, and code paths that
can raise (`IndexError`, `TypeError`) return `Option` or branch the way
the exception handler does.  Device-dependent calls (the sampler, the
qiskit mitigator object, the external `base`/`mitiq` helpers) are not in
the repository; where a claim depends on them they are modelled from the
spec and marked as such in their doc comments.
-/

/-- Python's `int(...)` applied to a rational: truncation toward zero. -/
def pyInt (q : ℚ) : ℤ := if 0 ≤ q then ⌊q⌋ else ⌈q⌉

/-- `dict[key]` access on an association-list histogram: the first binding of
the key, if any (a Python dict has at most one). -/
def hLookup {α : Type} : List (String × α) → String → Option α
  | [], _ => none
  | p :: t, bs => if p.1 = bs then some p.2 else hLookup t bs

/-- `dict.get(key, default)` on an association-list histogram. -/
def hGetD {α : Type} (h : List (String × α)) (bs : String) (d : α) : α :=
  (hLookup h bs).getD d

/-! ### Orchestrator: `ErrorMitigator.mitigate` (lines 532-566)

`mitigate` only branches on the configuration flags; which mitigation
routines run, and in which order, is a pure function of the flags.  We
record that order as a trace of stages.  The `pec` branch delegates to
`ErrorMitigator.pec`, which ends with `self.equalize` when
`self.equalization` is set (lines 391-392); the post-processing branch
(lines 553-566) calls `self.rem` and then `self.ibu` and never calls
`self.equalize`. -/

/-- The five boolean switches of `ErrorMitigator.__init__` (lines 178-182). -/
structure MitCfg where
  equalization : Bool
  readout_error_mitigation : Bool
  iterative_bayesian_unfolding : Bool
  zero_noise_extrapolation : Bool
  probabilistic_error_cancellation : Bool
deriving DecidableEq

/-- The mitigation routines `mitigate` can invoke. -/
inductive Stage where
  | rem
  | ibu
  | pec
  | equalize
deriving DecidableEq

/-- Trace of the stages executed by `ErrorMitigator.mitigate` (and, in its
`pec` branch, by `ErrorMitigator.pec`), in execution order, as a function of
the configuration flags. -/
def mitigateStages (cfg : MitCfg) : List Stage :=
  if cfg.readout_error_mitigation = false ∧
      cfg.iterative_bayesian_unfolding = false ∧
      cfg.probabilistic_error_cancellation = false then
    []
  else if cfg.probabilistic_error_cancellation then
    [Stage.pec] ++ (if cfg.equalization then [Stage.equalize] else [])
  else
    (if cfg.readout_error_mitigation then [Stage.rem] else []) ++
      (if cfg.iterative_bayesian_unfolding then [Stage.ibu] else [])

/-- C2 counterexample: with readout correction, unfolding and equalization all
enabled and PEC disabled, `mitigate` runs REM then IBU but never runs the
Equalizer, contradicting the claim that the Equalizer is applied when its flag
is enabled. -/
theorem mitigate_equalize_skipped_counterexample :
    mitigateStages ⟨true, true, true, false, false⟩ = [Stage.rem, Stage.ibu] ∧
      Stage.equalize ∉ mitigateStages ⟨true, true, true, false, false⟩ := by
  decide

/-- C2 (amended): whenever the PEC flag is false and at least one of the
readout-correction or unfolding flags is true, `mitigate` applies REM if
enabled and then IBU if enabled, in that fixed order, and the Equalizer is
never applied on this path, even when the equalization flag is enabled. -/
theorem mitigate_rem_then_ibu_no_equalize (cfg : MitCfg)
    (hpec : cfg.probabilistic_error_cancellation = false)
    (hone : cfg.readout_error_mitigation = true ∨
      cfg.iterative_bayesian_unfolding = true) :
    mitigateStages cfg =
        (if cfg.readout_error_mitigation then [Stage.rem] else []) ++
          (if cfg.iterative_bayesian_unfolding then [Stage.ibu] else []) ∧
      Stage.equalize ∉ mitigateStages cfg := by
  obtain ⟨e, r, i, z, p⟩ := cfg
  revert hpec hone
  revert e r i z p
  decide

/-- C2 witness: a concrete configuration (REM and IBU enabled, PEC disabled)
at which the amended theorem's hypotheses hold. -/
theorem mitigate_rem_then_ibu_no_equalize_witness :
    mitigateStages ⟨false, true, true, false, false⟩ =
        [Stage.rem, Stage.ibu] ∧
      Stage.equalize ∉ mitigateStages ⟨false, true, true, false, false⟩ :=
  mitigate_rem_then_ibu_no_equalize ⟨false, true, true, false, false⟩ rfl
    (Or.inl rfl)

/-! ### PEC representation cache: `PECTable` (lines 108-127) and the per-circuit
cache discipline of `ErrorMitigator.generate_pec_representations` (lines 285-313).

`PECTable.representations` is a Python dict; we model it as an association
list where `store` prepends (a later store for the same key shadows the
older entry, exactly as dict assignment does) and `load` is `dict.get`.
The producer (`pec.represent_operations_in_circuit_with_local_depolarizing_noise`)
is an external mitiq call that can raise; it is abstracted as an
`Option (List α)`: `some r` for a successful construction, `none` for the
`except` branch, which appends `[]` and does not store. -/

/-- `PECTable.store` (line 121-123): dict assignment `representations[key] = r`. -/
def pecTableStore {α : Type} (tbl : List (String × List α)) (key : String)
    (r : List α) : List (String × List α) :=
  (key, r) :: tbl

/-- `PECTable.load` (line 125-127): `representations.get(key)`. -/
def pecTableLoad {α : Type} (tbl : List (String × List α)) (key : String) :
    Option (List α) :=
  hLookup tbl key

/-- One iteration of the loop of `generate_pec_representations` (lines 285-313)
for a single circuit whose cache key is `key`: returns the representation
appended for this circuit, the updated table, and whether the expensive
producer was invoked. -/
def genOneRepr {α : Type} (tbl : List (String × List α)) (key : String)
    (producer : Option (List α)) :
    List α × List (String × List α) × Bool :=
  match pecTableLoad tbl key with
  | some cached => (cached, tbl, false)
  | none =>
      match producer with
      | some r => (r, pecTableStore tbl key r, true)
      | none => ([], tbl, true)

/-- C5: starting from any table state, requesting the representation for the
same cache key twice (with a producer that succeeds) invokes the producer at
most once, and the second request returns exactly the representation returned
by the first. -/
theorem pec_representation_cached_once {α : Type}
    (tbl : List (String × List α)) (key : String)
    (producer : Option (List α)) (r : List α) (hp : producer = some r) :
    ((if (genOneRepr tbl key producer).2.2 then 1 else 0) +
        (if (genOneRepr (genOneRepr tbl key producer).2.1 key
              producer).2.2 then 1 else 0) ≤ 1) ∧
      (genOneRepr (genOneRepr tbl key producer).2.1 key producer).1 =
        (genOneRepr tbl key producer).1 := by
  subst hp
  cases hload : pecTableLoad tbl key with
  | some cached =>
      simp [genOneRepr, hload]
  | none =>
      have hstore : pecTableLoad (pecTableStore tbl key r) key = some r := by
        simp [pecTableLoad, pecTableStore, hLookup]
      simp [genOneRepr, hload, hstore]

/-- C5 witness: a concrete empty table, key and succeeding producer. -/
theorem pec_representation_cached_once_witness :
    ((if (genOneRepr ([] : List (String × List ℕ)) "ibm_brisbane_3_77"
            (some [1, 2])).2.2 then 1 else 0) +
        (if (genOneRepr (genOneRepr ([] : List (String × List ℕ))
              "ibm_brisbane_3_77" (some [1, 2])).2.1 "ibm_brisbane_3_77"
              (some [1, 2])).2.2 then 1 else 0) ≤ 1) ∧
      (genOneRepr (genOneRepr ([] : List (String × List ℕ))
            "ibm_brisbane_3_77" (some [1, 2])).2.1 "ibm_brisbane_3_77"
            (some [1, 2])).1 =
        (genOneRepr ([] : List (String × List ℕ)) "ibm_brisbane_3_77"
            (some [1, 2])).1 :=
  pec_representation_cached_once [] "ibm_brisbane_3_77" (some [1, 2]) [1, 2]
    rfl

/-! ### `ErrorMitigator._combine_pec_results` (lines 397-429)

The combination step is pure Python over dicts of integer counts (the
`representation` argument is unused by the body).  `all_bitstrings` is a
Python `set`, whose iteration order is arbitrary; we fix the deterministic
first-occurrence order, and state order-sensitive facts via `lookup`.
Sample counts come from `get_counts()` and are natural numbers; combined
values live in `ℚ` (`counts.get(bs, 0) / total_weight` is float division),
and the rescaled branch applies `int(...)`. -/

/-- The set `all_bitstrings` (lines 410-412), in first-occurrence order. -/
def pecUnionKeys (cs : List (List (String × ℕ))) : List String :=
  (cs.flatMap (fun c => c.map Prod.fst)).foldl
    (fun acc k => if k ∈ acc then acc else acc ++ [k]) []

/-- The `combined` dict after the averaging loop (lines 414-421): for each
bitstring, the mean of its counts across all samples, a bitstring absent from
a sample contributing `0`. -/
def pecCombined (cs : List (List (String × ℕ))) : List (String × ℚ) :=
  (pecUnionKeys cs).map
    (fun bs => (bs, (cs.map (fun c => ((hGetD c bs 0 : ℕ) : ℚ))).sum /
      (cs.length : ℚ)))

/-- `total_counts` (line 424): the sum of the combined values. -/
def pecTotal (cs : List (List (String × ℕ))) : ℚ :=
  ((pecCombined cs).map Prod.snd).sum

/-- `_combine_pec_results` (lines 397-429): empty input returns the empty
dict; a positive combined total is rescaled entrywise by
`int(count * target_shots / total)`; otherwise the unscaled combination is
returned. -/
def combinePecResults (cs : List (List (String × ℕ))) (target_shots : ℕ) :
    List (String × ℚ) :=
  if cs = [] then []
  else if 0 < pecTotal cs then
    (pecCombined cs).map
      (fun p => (p.1,
        ((pyInt (p.2 * ((target_shots : ℚ) / pecTotal cs)) : ℤ) : ℚ)))
  else pecCombined cs

/-- Sum of the values of a rational-valued histogram. -/
def hSumQ (h : List (String × ℚ)) : ℚ := (h.map Prod.snd).sum

/-- Truncating each entry of a non-negative list to an integer can only
decrease its sum. -/
theorem sum_map_pyInt_le (l : List ℚ) (hl : ∀ x ∈ l, 0 ≤ x) :
    ((l.map (fun x => ((pyInt x : ℤ) : ℚ))).sum) ≤ l.sum := by
  induction l with
  | nil => simp
  | cons a t ih =>
      have ha : 0 ≤ a := hl a (List.mem_cons_self a t)
      have hfloor : ((pyInt a : ℤ) : ℚ) ≤ a := by
        simp only [pyInt, if_pos ha]
        exact Int.floor_le a
      have ht := ih (fun x hx => hl x (List.mem_cons_of_mem a hx))
      simp only [List.map_cons, List.sum_cons]
      exact add_le_add hfloor ht

/-- Every value of the `combined` dict is non-negative. -/
theorem pecCombined_nonneg (cs : List (List (String × ℕ))) :
    ∀ p ∈ pecCombined cs, 0 ≤ p.2 := by
  intro p hp
  simp only [pecCombined, List.mem_map] at hp
  obtain ⟨bs, _, rfl⟩ := hp
  refine div_nonneg ?_ (by positivity)
  apply List.sum_nonneg
  intro x hx
  simp only [List.mem_map] at hx
  obtain ⟨c, _, rfl⟩ := hx
  positivity

/-- A list of non-negative rationals with non-positive sum is all zeros. -/
theorem all_zero_of_sum_nonpos (l : List ℚ) (hl : ∀ x ∈ l, 0 ≤ x)
    (hs : l.sum ≤ 0) : ∀ x ∈ l, x = 0 := by
  induction l with
  | nil => simp
  | cons a t ih =>
      have ha : 0 ≤ a := hl a (List.mem_cons_self a t)
      have htn : 0 ≤ t.sum :=
        List.sum_nonneg (fun x hx => hl x (List.mem_cons_of_mem a hx))
      have hsum : a + t.sum ≤ 0 := by simpa using hs
      have ha0 : a = 0 := le_antisymm (by linarith) ha
      intro x hx
      rcases List.mem_cons.mp hx with h | h
      · exact h ▸ ha0
      · exact ih (fun y hy => hl y (List.mem_cons_of_mem a hy))
          (by linarith) x h

/-- C6 counterexample: three bitstrings with equal counts and 100 target
shots; the rescaled result sums to 99, not to the target shot count, because
each entry is truncated by `int(...)` separately. -/
theorem combine_total_not_exact_counterexample :
    hSumQ (combinePecResults [[("0", 1), ("1", 1), ("10", 1)]] 100) = 99 ∧
      (99 : ℚ) ≠ 100 := by
  constructor
  · have hc : pecCombined [[("0", 1), ("1", 1), ("10", 1)]] =
        [("0", 1), ("1", 1), ("10", 1)] := by
      have hk : pecUnionKeys [[("0", 1), ("1", 1), ("10", 1)]] =
          ["0", "1", "10"] := by decide
      rw [pecCombined, hk]
      simp [hGetD, hLookup]
    have ht : pecTotal [[("0", 1), ("1", 1), ("10", 1)]] = 3 := by
      rw [pecTotal, hc]; norm_num
    have h33 : pyInt ((100 : ℚ) / 3) = 33 := by
      rw [pyInt, if_pos (by norm_num)]
      norm_num [Int.floor_eq_iff]
    rw [hSumQ, combinePecResults, if_neg (by simp), ht, if_pos (by norm_num),
      hc]
    norm_num [h33]
  · norm_num

/-- C6 (amended): `_combine_pec_results` averages each bitstring's counts
across the samples (absent bitstrings counting 0) and rescales by
`target_shots / total` with per-entry `int(...)` truncation, so the rescaled
total is at most (not always equal to) the target; on the spec's example
`[{"00":80,"01":20}, {"00":60,"01":40}]` with 100 target shots the result is
exactly {"00":70, "01":30}. -/
theorem combine_mean_then_truncated_rescale :
    combinePecResults [[("00", 80), ("01", 20)], [("00", 60), ("01", 40)]]
        100 = [("00", 70), ("01", 30)] ∧
      ∀ (cs : List (List (String × ℕ))) (t : ℕ),
        hSumQ (combinePecResults cs t) ≤ (t : ℚ) := by
  constructor
  · have hc : pecCombined [[("00", 80), ("01", 20)], [("00", 60), ("01", 40)]] =
        [("00", 70), ("01", 30)] := by
      have hk : pecUnionKeys
          [[("00", 80), ("01", 20)], [("00", 60), ("01", 40)]] =
          ["00", "01"] := by decide
      rw [pecCombined, hk]
      simp [hGetD, hLookup]
      norm_num
    have ht : pecTotal [[("00", 80), ("01", 20)], [("00", 60), ("01", 40)]] =
        100 := by
      rw [pecTotal, hc]; norm_num
    rw [combinePecResults, if_neg (by simp), ht, if_pos (by norm_num), hc]
    norm_num [pyInt]
  · intro cs t
    rw [combinePecResults]
    by_cases hcs : cs = []
    · simp [hcs, hSumQ]
    rw [if_neg hcs]
    by_cases htot : 0 < pecTotal cs
    · rw [if_pos htot]
      have hscale : (0 : ℚ) ≤ (t : ℚ) / pecTotal cs :=
        div_nonneg (by positivity) (le_of_lt htot)
      have hmaps :
          ((pecCombined cs).map
              (fun p => (p.1,
                ((pyInt (p.2 * ((t : ℚ) / pecTotal cs)) : ℤ) : ℚ)))).map
            Prod.snd =
          (((pecCombined cs).map
              (fun p => p.2 * ((t : ℚ) / pecTotal cs))).map
            (fun x => ((pyInt x : ℤ) : ℚ))) := by
        simp [List.map_map, Function.comp]
      rw [hSumQ, hmaps]
      have hle := sum_map_pyInt_le
        ((pecCombined cs).map (fun p => p.2 * ((t : ℚ) / pecTotal cs)))
        (by
          intro x hx
          simp only [List.mem_map] at hx
          obtain ⟨p, hp, rfl⟩ := hx
          exact mul_nonneg (pecCombined_nonneg cs p hp) hscale)
      refine le_trans hle ?_
      have hsum : ((pecCombined cs).map
          (fun p => p.2 * ((t : ℚ) / pecTotal cs))).sum =
          pecTotal cs * ((t : ℚ) / pecTotal cs) := by
        rw [pecTotal]
        rw [← List.sum_map_mul_right]
      rw [hsum, mul_comm, div_mul_cancel₀ _ (ne_of_gt htot)]
    · rw [if_neg htot]
      have : hSumQ (pecCombined cs) = pecTotal cs := rfl
      rw [this]
      exact le_trans (not_lt.mp htot) (by positivity)

/-- C6 witness: the amended theorem's second conjunct instantiated at the
counterexample's input. -/
theorem combine_mean_then_truncated_rescale_witness :
    hSumQ (combinePecResults [[("00", 5)]] 7) ≤ (7 : ℚ) :=
  combine_mean_then_truncated_rescale.2 [[("00", 5)]] 7

/-- C10: `_combine_pec_results` never divides by zero: the empty sample list
returns the empty histogram, and a non-positive combined total skips the
rescaling branch and returns the unscaled combination, which is all zeros. -/
theorem combine_empty_and_zero_total (cs : List (List (String × ℕ))) (t : ℕ) :
    combinePecResults [] t = [] ∧
      (pecTotal cs ≤ 0 → combinePecResults cs t = pecCombined cs ∧
        ∀ p ∈ pecCombined cs, p.2 = 0) := by
  constructor
  · rw [combinePecResults, if_pos rfl]
  · intro htot
    have hzero : ∀ p ∈ pecCombined cs, p.2 = 0 := by
      intro p hp
      exact all_zero_of_sum_nonpos ((pecCombined cs).map Prod.snd)
        (by
          intro x hx
          simp only [List.mem_map] at hx
          obtain ⟨q, hq, rfl⟩ := hx
          exact pecCombined_nonneg cs q hq)
        htot p.2 (List.mem_map_of_mem Prod.snd hp)
    refine ⟨?_, hzero⟩
    by_cases hcs : cs = []
    · subst hcs
      rw [combinePecResults, if_pos rfl]
      rfl
    · rw [combinePecResults, if_neg hcs, if_neg (not_lt.mpr htot)]

/-- C10 witness: a single sample whose only bitstring has count 0 gives a
zero combined total, and the rescaling branch is skipped. -/
theorem combine_empty_and_zero_total_witness :
    combinePecResults [[("0", 0)]] 5 = pecCombined [[("0", 0)]] :=
  ((combine_empty_and_zero_total [[("0", 0)]] 5).2
    (by
      have hk : pecUnionKeys [[("0", 0)]] = ["0"] := by decide
      rw [pecTotal, pecCombined, hk]
      simp [hGetD, hLookup])).1

/-! ### `ErrorMitigator.zne` (lines 431-503)

The post-execution arithmetic of `zne` is embedded: the per-bitstring
expectation values built from the corrected per-scale histograms (lines
482-489), the degree-2 zero-noise extrapolation (line 491) and the
conversion back to integer counts (lines 492-494).  The crucial detail of
lines 484-488 is that `counts.get(bitstring)` returns `None` when the
bitstring is absent, so `None / shots` raises `TypeError` and the `except`
arm replaces the expectation values at ALL scale factors of that step by
zeros, discarding any values already computed for the present scales. -/

/-- Modelled from the spec: `generate_bitstrings` from the external `base`
module (not in the repository): all 2^k bitstrings over k measured qubits,
in lexicographic order. -/
def generateBitstrings : ℕ → List String
  | 0 => [""]
  | n + 1 => (generateBitstrings n).flatMap (fun s => [s ++ "0", s ++ "1"])

/-- The fixed scale-factor sequence of line 449: `[1., 1.5, 2., 2.5, 3., 3.5, 4.]`. -/
def zneScaleFactors : List ℚ := [1, 3/2, 2, 5/2, 3, 7/2, 4]

/-- Determinant of a 3x3 matrix given row-major. -/
def det3 (a b c d e f g h i : ℚ) : ℚ :=
  a * (e * i - f * h) - b * (d * i - f * g) + c * (d * h - e * g)

/-- Modelled from the spec: `zne.PolyFactory.extrapolate(scale_factors, exp, 2)`
from the external mitiq library: the degree-2 least-squares polynomial fit of
the points `(xs i, ys i)`, evaluated at scale factor 0, i.e. the constant
coefficient of the normal equations, solved by Cramer's rule. -/
def polyExtrapolate2 (xs ys : List ℚ) : ℚ :=
  let s0 : ℚ := xs.length
  let s1 := xs.sum
  let s2 := (xs.map (fun x => x ^ 2)).sum
  let s3 := (xs.map (fun x => x ^ 3)).sum
  let s4 := (xs.map (fun x => x ^ 4)).sum
  let t0 := ys.sum
  let t1 := ((xs.zip ys).map (fun p => p.1 * p.2)).sum
  let t2 := ((xs.zip ys).map (fun p => p.1 ^ 2 * p.2)).sum
  det3 s4 s3 t2 s3 s2 t1 s2 s1 t0 / det3 s4 s3 s2 s3 s2 s1 s2 s1 s0

/-- Lines 484-488 of `zne`, for one step and one bitstring: the list of
per-scale expectation values.  `counts.get(bitstring) / shots` raises
`TypeError` as soon as one scale's histogram misses the bitstring, in which
case the `except` arm yields all zeros. -/
def zneExpVals (shots : ℕ) (scaleCounts : List (List (String × ℕ)))
    (bs : String) : List ℚ :=
  if scaleCounts.all (fun h => (hLookup h bs).isSome) then
    scaleCounts.map (fun h => ((hGetD h bs 0 : ℕ) : ℚ) / (shots : ℚ))
  else scaleCounts.map (fun _ => 0)

/-- The per-scale expectation values as claim C1 describes them: a bitstring
absent from one scale's histogram contributes 0 at that scale while the
other scales still contribute their `count / shots`. -/
def claimZneExpVals (shots : ℕ) (scaleCounts : List (List (String × ℕ)))
    (bs : String) : List ℚ :=
  scaleCounts.map (fun h => match hLookup h bs with
    | some c => ((c : ℕ) : ℚ) / (shots : ℚ)
    | none => 0)

/-- Lines 491-494 of `zne`, for one step: the mitigated histogram, mapping
each of the 2^k generated bitstrings to `int(znv * shots)` where `znv` is the
degree-2 zero-noise extrapolation of its per-scale expectation values. -/
def zneStepCounts (shots k : ℕ) (scaleCounts : List (List (String × ℕ))) :
    List (String × ℤ) :=
  (generateBitstrings k).map
    (fun bs => (bs, pyInt (polyExtrapolate2 zneScaleFactors
      (zneExpVals shots scaleCounts bs) * (shots : ℚ))))

/-- C1 counterexample: bitstring "0" is present (count 100, shots 100) in the
first scale's histogram and absent from the second; the claim predicts
expectation values [1, 0], but the `TypeError` handler zeroes the first
scale's value as well, giving [0, 0]. -/
theorem zne_absent_bitstring_counterexample :
    zneExpVals 100 [[("0", 100)], []] "0" = [0, 0] ∧
      claimZneExpVals 100 [[("0", 100)], []] "0" = [1, 0] ∧
      zneExpVals 100 [[("0", 100)], []] "0" ≠
        claimZneExpVals 100 [[("0", 100)], []] "0" := by
  refine ⟨?_, ?_, ?_⟩
  · simp [zneExpVals, hLookup]
  · simp [claimZneExpVals, hLookup]
  · simp [zneExpVals, claimZneExpVals, hLookup]

/-- C1 (amended): if a bitstring is present in every scale factor's corrected
histogram its expectation values are the claimed `count / shots`; but if it
is absent from ANY scale's histogram, the expectation values at ALL scale
factors of that step are zeroed; either way every generated bitstring is kept
as a key of the fitted step histogram, never omitted from the fit. -/
theorem zne_absent_bitstring_zeroes_all_scales (shots k : ℕ)
    (cs : List (List (String × ℕ))) (bs : String) :
    ((∀ h ∈ cs, (hLookup h bs).isSome = true) →
        zneExpVals shots cs bs = claimZneExpVals shots cs bs) ∧
      ((¬ ∀ h ∈ cs, (hLookup h bs).isSome = true) →
        zneExpVals shots cs bs = cs.map (fun _ => 0)) ∧
      (zneStepCounts shots k cs).map Prod.fst = generateBitstrings k := by
  refine ⟨?_, ?_, ?_⟩
  · intro hall
    rw [zneExpVals, if_pos (List.all_eq_true.mpr hall), claimZneExpVals]
    refine List.map_congr_left ?_
    intro h hm
    obtain ⟨c, hc⟩ := Option.isSome_iff_exists.mp (hall h hm)
    simp [hGetD, hc]
  · intro hn
    rw [zneExpVals, if_neg (fun hb => hn (List.all_eq_true.mp hb))]
  · simp [zneStepCounts, List.map_map, Function.comp_def]

/-- C1 witness: a concrete step in which "0" is absent from the second
scale's histogram, and the key list of the fitted histogram for k = 1. -/
theorem zne_absent_bitstring_zeroes_all_scales_witness :
    zneExpVals 10 [[("0", 5)], []] "0" = [0, 0] ∧
      (zneStepCounts 10 1 [[("0", 5)], []]).map Prod.fst = ["0", "1"] :=
  ⟨(zne_absent_bitstring_zeroes_all_scales 10 1 [[("0", 5)], []] "0").2.1
      (by decide),
    (zne_absent_bitstring_zeroes_all_scales 10 1 [[("0", 5)], []] "0").2.2⟩

/-- Per-scale counts growing linearly in the scale factor: for shots = 2 the
expectation values lie exactly on the line s - 1, whose degree-2 least-squares
fit evaluates to -1 at scale 0. -/
def zneCounterexampleCounts : List (List (String × ℕ)) :=
  [[("0", 0)], [("0", 1)], [("0", 2)], [("0", 3)], [("0", 4)], [("0", 5)],
    [("0", 6)]]

/-- C8 counterexample: a step histogram returned by `zne` with a negative
count: the zero-noise extrapolation of bitstring "0" is -1, and
`int(-1 * 2) = -2 < 0`. -/
theorem zne_negative_count_counterexample :
    zneStepCounts 2 1 zneCounterexampleCounts = [("0", -2), ("1", 0)] ∧
      (-2 : ℤ) < 0 := by
  constructor
  · have hv0 : zneExpVals 2 zneCounterexampleCounts "0" =
        [0, 1/2, 1, 3/2, 2, 5/2, 3] := by
      simp [zneExpVals, zneCounterexampleCounts, hGetD, hLookup]
      norm_num
    have hv1 : zneExpVals 2 zneCounterexampleCounts "1" =
        [0, 0, 0, 0, 0, 0, 0] := by
      simp [zneExpVals, zneCounterexampleCounts, hGetD, hLookup]
    have hp0 : polyExtrapolate2 zneScaleFactors [0, 1/2, 1, 3/2, 2, 5/2, 3] =
        -1 := by
      norm_num [polyExtrapolate2, zneScaleFactors, det3, List.zip]
    have hp1 : polyExtrapolate2 zneScaleFactors [0, 0, 0, 0, 0, 0, 0] = 0 := by
      norm_num [polyExtrapolate2, zneScaleFactors, det3, List.zip]
    have hgb : generateBitstrings 1 = ["0", "1"] := by decide
    rw [zneStepCounts, hgb]
    simp only [List.map_cons, List.map_nil, hv0, hv1, hp0, hp1]
    norm_num [pyInt, Int.ceil_eq_iff, Int.floor_eq_iff]
  · decide

/-- C8 (amended): every entry of a `zne` step histogram is
`int(znv * shots)` for its bitstring's zero-noise value `znv`; the count is
non-negative whenever the extrapolated zero-noise expectation value is
non-negative, but it is not clamped, so a negative extrapolation yields a
negative count. -/
theorem zne_count_nonneg_of_extrap_nonneg (shots k : ℕ)
    (cs : List (List (String × ℕ))) (p : String × ℤ)
    (hp : p ∈ zneStepCounts shots k cs)
    (hnn : 0 ≤ polyExtrapolate2 zneScaleFactors (zneExpVals shots cs p.1)) :
    0 ≤ p.2 := by
  simp only [zneStepCounts, List.mem_map] at hp
  obtain ⟨bs, hbs, rfl⟩ := hp
  simp only at hnn ⊢
  have hq : 0 ≤ polyExtrapolate2 zneScaleFactors (zneExpVals shots cs bs) *
      (shots : ℚ) := mul_nonneg hnn (by positivity)
  rw [pyInt, if_pos hq]
  exact Int.le_floor.mpr (by exact_mod_cast hq)

/-- Constant per-scale counts: every scale sees count 1 at shots 1, so all
expectation values are 1 and the fit is the constant polynomial 1. -/
def zneConstantCounts : List (List (String × ℕ)) :=
  [[("0", 1)], [("0", 1)], [("0", 1)], [("0", 1)], [("0", 1)], [("0", 1)],
    [("0", 1)]]

/-- C8 witness: at the constant input the extrapolation is 1 ≥ 0 and the
count entry ("0", 1) of the step histogram is non-negative. -/
theorem zne_count_nonneg_of_extrap_nonneg_witness :
    (0 : ℤ) ≤ (("0", (1 : ℤ)) : String × ℤ).2 := by
  have hv : zneExpVals 1 zneConstantCounts "0" = [1, 1, 1, 1, 1, 1, 1] := by
    simp [zneExpVals, zneConstantCounts, hGetD, hLookup]
  have hp1 : polyExtrapolate2 zneScaleFactors [1, 1, 1, 1, 1, 1, 1] = 1 := by
    norm_num [polyExtrapolate2, zneScaleFactors, det3, List.zip]
  have hv1 : zneExpVals 1 zneConstantCounts "1" = [0, 0, 0, 0, 0, 0, 0] := by
    simp [zneExpVals, zneConstantCounts, hGetD, hLookup]
  have hp0 : polyExtrapolate2 zneScaleFactors [0, 0, 0, 0, 0, 0, 0] = 0 := by
    norm_num [polyExtrapolate2, zneScaleFactors, det3, List.zip]
  have hgb : generateBitstrings 1 = ["0", "1"] := by decide
  have hsteps : zneStepCounts 1 1 zneConstantCounts = [("0", 1), ("1", 0)] := by
    rw [zneStepCounts, hgb]
    simp only [List.map_cons, List.map_nil, hv, hv1, hp1, hp0]
    norm_num [pyInt, Int.floor_eq_iff]
  exact zne_count_nonneg_of_extrap_nonneg 1 1 zneConstantCounts ("0", 1)
    (by rw [hsteps]; exact List.mem_cons_self _ _)
    (by
      show (0 : ℚ) ≤ polyExtrapolate2 zneScaleFactors
        (zneExpVals 1 zneConstantCounts "0")
      rw [hv, hp1]
      norm_num)

/-! ### `ErrorMitigator.rem` (lines 195-213)

The calibration mitigator returned by qiskit-experiments and its
`quasi_probabilities` / `nearest_probability_distribution` /
`binary_probabilities` methods are external to the repository; they are
modelled from the spec: the mitigator's inverse map is an arbitrary matrix
`Ainv` applied to the histogram's empirical distribution, and the nearest
probability distribution clips negative quasi-probabilities to 0 and
renormalizes the rest to sum to 1 (spec section 4.2).  The final conversion
`int(prob * shots)` (line 211) is repository code and is embedded exactly. -/

/-- Total number of counts of a raw histogram. -/
def hTotalN (h : List (String × ℕ)) : ℕ := (h.map Prod.snd).sum

/-- Modelled from the spec: `mitigator.quasi_probabilities(count)` — the
calibration's inverse map `Ainv` applied to the histogram's empirical
distribution; the quasi-probability of key `k` is
`Σ over entries (k', c) of Ainv k k' * c / total`.  Keys are preserved. -/
def quasiProbs (Ainv : String → String → ℚ) (h : List (String × ℕ)) :
    List (String × ℚ) :=
  h.map (fun p => (p.1,
    (h.map (fun q => Ainv p.1 q.1 * (q.2 : ℚ))).sum / (hTotalN h : ℚ)))

/-- Modelled from the spec: the clipping half of
`nearest_probability_distribution` — negative quasi-probabilities are
clipped to 0. -/
def clipNeg (q : List (String × ℚ)) : List (String × ℚ) :=
  q.map (fun p => (p.1, max 0 p.2))

/-- Modelled from the spec: `nearest_probability_distribution()` followed by
`binary_probabilities()` — clip negative quasi-probabilities, then
renormalize so the values sum to 1 (division by a zero total yields 0 in
`ℚ`, keeping the function total). -/
def nearestProbDist (q : List (String × ℚ)) : List (String × ℚ) :=
  (clipNeg q).map (fun p => (p.1, p.2 / (((clipNeg q).map Prod.snd).sum)))

/-- `ErrorMitigator.rem` for a single histogram (lines 206-211): inverse map,
projection, then `int(prob * shots)` per entry. -/
def remOne (Ainv : String → String → ℚ) (shots : ℕ)
    (count : List (String × ℕ)) : List (String × ℤ) :=
  (nearestProbDist (quasiProbs Ainv count)).map
    (fun p => (p.1, pyInt (p.2 * (shots : ℚ))))

/-- `ErrorMitigator.rem` (lines 195-213): one corrected histogram per input
histogram. -/
def rem (Ainv : String → String → ℚ) (shots : ℕ)
    (counts : List (List (String × ℕ))) : List (List (String × ℤ)) :=
  counts.map (remOne Ainv shots)

/-- `int(...)` of a non-negative rational is non-negative. -/
theorem pyInt_nonneg (q : ℚ) (h : 0 ≤ q) : 0 ≤ pyInt q := by
  rw [pyInt, if_pos h]
  exact Int.le_floor.mpr (by exact_mod_cast h)

/-- Every probability produced by the projection is non-negative. -/
theorem nearestProbDist_nonneg (q : List (String × ℚ)) :
    ∀ p ∈ nearestProbDist q, 0 ≤ p.2 := by
  intro p hp
  simp only [nearestProbDist, clipNeg, List.map_map, List.mem_map] at hp
  obtain ⟨r, hr, rfl⟩ := hp
  refine div_nonneg (le_max_left 0 r.2) ?_
  apply List.sum_nonneg
  intro x hx
  simp only [List.map_map, List.mem_map] at hx
  obtain ⟨s, hs, rfl⟩ := hx
  exact le_max_left 0 s.2

/-- The projected probabilities sum to at most 1 (exactly 1 unless all
clipped values are 0). -/
theorem nearestProbDist_sum_le_one (q : List (String × ℚ)) :
    ((nearestProbDist q).map Prod.snd).sum ≤ 1 := by
  set T := ((clipNeg q).map Prod.snd).sum with hT
  have hmap : ((nearestProbDist q).map Prod.snd).sum = T * T⁻¹ := by
    rw [nearestProbDist]
    rw [List.map_map]
    have hcomp : (Prod.snd ∘ fun p : String × ℚ => (p.1, p.2 / T)) =
        (fun p : String × ℚ => p.2 * T⁻¹) := by
      funext p
      simp [div_eq_mul_inv]
    rw [hcomp, List.sum_map_mul_right, hT]
  rw [hmap]
  rcases eq_or_ne T 0 with h0 | h0
  · rw [h0]; norm_num
  · rw [mul_inv_cancel₀ h0]

/-- C3: for every mitigator matrix, shots count and histogram, the corrected
histogram of `rem` has exactly the input histogram's key set, and every
corrected count is a non-negative integer. -/
theorem rem_keys_and_nonneg (Ainv : String → String → ℚ) (shots : ℕ)
    (h : List (String × ℕ)) :
    (remOne Ainv shots h).map Prod.fst = h.map Prod.fst ∧
      ∀ p ∈ remOne Ainv shots h, 0 ≤ p.2 := by
  constructor
  · simp [remOne, nearestProbDist, clipNeg, quasiProbs, List.map_map,
      Function.comp_def]
  · intro p hp
    simp only [remOne, List.mem_map] at hp
    obtain ⟨r, hr, rfl⟩ := hp
    exact pyInt_nonneg _ (mul_nonneg (nearestProbDist_nonneg _ r hr)
      (by positivity))

/-- The identity inverse map: a calibration with no readout error. -/
def idMitigator : String → String → ℚ := fun a b => if a = b then 1 else 0

/-- C3 witness: a concrete two-key histogram under the identity mitigator;
the key set is preserved and the first corrected entry is non-negative. -/
theorem rem_keys_and_nonneg_witness :
    (remOne idMitigator 4 [("0", 3), ("1", 1)]).map Prod.fst = ["0", "1"] ∧
      (0 : ℤ) ≤ (("0", (3 : ℤ)) : String × ℤ).2 :=
  ⟨(rem_keys_and_nonneg idMitigator 4 [("0", 3), ("1", 1)]).1,
    (rem_keys_and_nonneg idMitigator 4 [("0", 3), ("1", 1)]).2 ("0", 3)
      (by
        have hq : quasiProbs idMitigator [("0", 3), ("1", 1)] =
            [("0", 3/4), ("1", 1/4)] := by
          simp [quasiProbs, hTotalN, idMitigator]
        have hn : nearestProbDist [("0", (3 : ℚ)/4), ("1", 1/4)] =
            [("0", 3/4), ("1", 1/4)] := by
          simp [nearestProbDist, clipNeg]
          norm_num
        have h3 : pyInt (3 : ℚ) = 3 := by
          rw [pyInt, if_pos (by norm_num)]
          norm_num [Int.floor_eq_iff]
        have h1 : pyInt (1 : ℚ) = 1 := by
          rw [pyInt, if_pos (by norm_num)]
          norm_num [Int.floor_eq_iff]
        rw [remOne, hq, hn]
        norm_num [h3, h1])⟩

/-- C4 counterexample: three equally likely keys and 100 shots; each
corrected count is `int(100/3) = 33` and the total is 99, not the requested
shots count. -/
theorem rem_sum_not_shots_counterexample :
    (((remOne idMitigator 100 [("0", 1), ("1", 1), ("10", 1)]).map
        (fun p => ((p.2 : ℤ) : ℚ))).sum) = 99 ∧ (99 : ℚ) ≠ 100 := by
  constructor
  · have hq : quasiProbs idMitigator [("0", 1), ("1", 1), ("10", 1)] =
        [("0", 1/3), ("1", 1/3), ("10", 1/3)] := by
      simp [quasiProbs, hTotalN, idMitigator]
    have hn : nearestProbDist [("0", (1 : ℚ)/3), ("1", 1/3), ("10", 1/3)] =
        [("0", 1/3), ("1", 1/3), ("10", 1/3)] := by
      simp [nearestProbDist, clipNeg]
      norm_num
    have h33 : pyInt ((100 : ℚ)/3) = 33 := by
      rw [pyInt, if_pos (by norm_num)]
      norm_num [Int.floor_eq_iff]
    rw [remOne, hq, hn]
    norm_num [h33]
  · norm_num

/-- C4 (amended): `rem` projects the inverse-mapped quasi-probabilities onto
the nearest probability distribution and rescales entrywise by
`int(prob * shots)`, whose truncation makes the corrected total at most (not
always exactly) the requested shots count. -/
theorem rem_sum_le_shots (Ainv : String → String → ℚ) (shots : ℕ)
    (h : List (String × ℕ)) :
    (((remOne Ainv shots h).map (fun p => ((p.2 : ℤ) : ℚ))).sum) ≤
      (shots : ℚ) := by
  have hmaps : ((remOne Ainv shots h).map (fun p => ((p.2 : ℤ) : ℚ))) =
      (((nearestProbDist (quasiProbs Ainv h)).map
          (fun p => p.2 * (shots : ℚ))).map
        (fun x => ((pyInt x : ℤ) : ℚ))) := by
    simp [remOne, List.map_map, Function.comp_def]
  rw [hmaps]
  have hle := sum_map_pyInt_le
    ((nearestProbDist (quasiProbs Ainv h)).map (fun p => p.2 * (shots : ℚ)))
    (by
      intro x hx
      simp only [List.mem_map] at hx
      obtain ⟨p, hp, rfl⟩ := hx
      exact mul_nonneg (nearestProbDist_nonneg _ p hp) (by positivity))
  refine le_trans hle ?_
  rw [List.sum_map_mul_right]
  exact mul_le_of_le_one_left (by positivity)
    (nearestProbDist_sum_le_one (quasiProbs Ainv h))

/-! ### `ErrorMitigator.equalize` (lines 507-530)

`equalize` is pure given the number of measured qubits `k` (the length of
`StepCircuit(lattice, 0).grid_qubits`) and the lattice dimensions
`d0 x d1`.  For each histogram it takes the value at index `2 ^ (k - 1)` of
the ascending-sorted count values as the cutoff — an `IndexError` when the
histogram has at most `2 ^ (k - 1)` entries, modelled as `none` — zeroes
the values below the cutoff and sets the rest to
`shots / (d0 * d1 * 0.5)`.  Count values live in `ℚ` because the
replacement value is a float in the source, so `equalize` can be iterated. -/

/-- The replacement value `shots / (dims[0] * dims[1] * 0.5)` (line 527). -/
def equalizeVal (d0 d1 shots : ℕ) : ℚ :=
  (shots : ℚ) / ((d0 : ℚ) * (d1 : ℚ) * (1/2))

/-- The loop body of `equalize` for one histogram (lines 521-527): sort the
values, index the cutoff (failing for short histograms), and threshold. -/
def equalizeOne (k d0 d1 shots : ℕ) (count : List (String × ℚ)) :
    Option (List (String × ℚ)) :=
  if h : 2 ^ (k - 1) <
      (List.insertionSort (· ≤ ·) (count.map Prod.snd)).length then
    some (count.map (fun p =>
      (p.1, if p.2 < (List.insertionSort (· ≤ ·) (count.map Prod.snd)).get
          ⟨2 ^ (k - 1), h⟩ then 0 else equalizeVal d0 d1 shots)))
  else none

/-- `ErrorMitigator.equalize` (lines 507-530): the loop over the histograms;
an `IndexError` on any histogram aborts the whole call. -/
def equalize (k d0 d1 shots : ℕ) :
    List (List (String × ℚ)) → Option (List (List (String × ℚ)))
  | [] => some []
  | c :: cs =>
      match equalizeOne k d0 d1 shots c, equalize k d0 d1 shots cs with
      | some r, some rs => some (r :: rs)
      | _, _ => none

theorem equalizeVal_nonneg (d0 d1 shots : ℕ) :
    0 ≤ equalizeVal d0 d1 shots := by
  rw [equalizeVal]
  positivity

/-- In a sorted list, fewer than `i + 1` elements are strictly below the
element at index `i`. -/
theorem countP_lt_get_le_index (l : List ℚ) (hs : l.Sorted (· ≤ ·)) (i : ℕ)
    (hi : i < l.length) :
    l.countP (fun x => decide (x < l.get ⟨i, hi⟩)) ≤ i := by
  set c := l.get ⟨i, hi⟩ with hc
  have hsplit : l.countP (fun x => decide (x < c)) =
      (l.take i).countP (fun x => decide (x < c)) +
        (l.drop i).countP (fun x => decide (x < c)) := by
    rw [← List.countP_append, List.take_append_drop]
  rw [hsplit]
  have h1 : (l.take i).countP (fun x => decide (x < c)) ≤ i :=
    le_trans (List.countP_le_length _) (List.length_take_le i l)
  have h2 : (l.drop i).countP (fun x => decide (x < c)) = 0 := by
    apply List.countP_eq_zero.mpr
    intro a ha
    obtain ⟨j, hj, hja⟩ := List.mem_iff_getElem.mp ha
    have hjl : i + j < l.length := by
      have := hj
      simp only [List.length_drop] at this
      omega
    have hval : (l.drop i)[j] = l[i + j] := List.getElem_drop ..
    have hca : c ≤ a := by
      rw [← hja, hval]
      rcases Nat.eq_zero_or_pos j with hj0 | hj0
      · subst hj0
        have heq0 : l[i + 0] = l[i] := by simp
        rw [heq0, hc]
        simp [List.get_eq_getElem]
      · have hlt : i < i + j := by omega
        have := List.pairwise_iff_getElem.mp hs i (i + j) hi hjl hlt
        rw [hc]
        simpa [List.get_eq_getElem] using this
    simp [not_lt.mpr hca]
  omega

/-- A list all of whose elements are `0` or `V` (with `V > 0`) is a
permutation of a block of `0`s followed by a block of `V`s, the zero block
having length `countP (x < V)`. -/
theorem perm_rep_rep_of_mem_pair (V : ℚ) (hV : 0 < V) (l : List ℚ)
    (hmem : ∀ x ∈ l, x = 0 ∨ x = V) :
    List.Perm l (List.replicate (l.countP (fun x => decide (x < V))) 0 ++
      List.replicate (l.length - l.countP (fun x => decide (x < V))) V) := by
  induction l with
  | nil => simp
  | cons x t ih =>
      have hz : t.countP (fun x => decide (x < V)) ≤ t.length :=
        List.countP_le_length _
      rcases hmem x (List.mem_cons_self x t) with hx0 | hxV
      · subst hx0
        have hcount : (0 :: t).countP (fun x => decide (x < V)) =
            t.countP (fun x => decide (x < V)) + 1 :=
          List.countP_cons_of_pos _ _ (by simpa using hV)
        rw [hcount]
        have hlen : (0 :: t).length - (t.countP (fun x => decide (x < V)) + 1) =
            t.length - t.countP (fun x => decide (x < V)) := by
          simp only [List.length_cons]
          omega
        rw [hlen, List.replicate_succ, List.cons_append]
        exact (ih (fun y hy => hmem y (List.mem_cons_of_mem _ hy))).cons 0
      · rw [hxV]
        have hcount : (V :: t).countP (fun x => decide (x < V)) =
            t.countP (fun x => decide (x < V)) :=
          List.countP_cons_of_neg _ _ (by simp)
        rw [hcount]
        have hlen : (V :: t).length - t.countP (fun x => decide (x < V)) =
            (t.length - t.countP (fun x => decide (x < V))) + 1 := by
          simp only [List.length_cons]
          omega
        rw [hlen, List.replicate_succ]
        refine ((ih (fun y hy => hmem y (List.mem_cons_of_mem _ hy))).cons
          V).trans ?_
        exact List.perm_middle.symm

/-- A block of `0`s followed by a block of `V ≥ 0`s is sorted. -/
theorem sorted_rep_zero_rep (z w : ℕ) (V : ℚ) (hV : 0 ≤ V) :
    List.Sorted (· ≤ ·) (List.replicate z (0 : ℚ) ++ List.replicate w V) := by
  refine List.pairwise_append.mpr ⟨?_, ?_, ?_⟩
  · exact List.pairwise_replicate.mpr (Or.inr le_rfl)
  · exact List.pairwise_replicate.mpr (Or.inr le_rfl)
  · intro a ha b hb
    rw [List.eq_of_mem_replicate ha, List.eq_of_mem_replicate hb]
    exact hV

/-- Sorting a list of `0`s and `V`s with at most `m` elements below `V`
puts `V` at every index from `m` on. -/
theorem sorted_get_of_mem_pair (V : ℚ) (hVpos : 0 < V) (l : List ℚ)
    (hmem : ∀ x ∈ l, x = 0 ∨ x = V) (m : ℕ)
    (hm : m < (List.insertionSort (· ≤ ·) l).length)
    (hcnt : l.countP (fun x => decide (x < V)) ≤ m) :
    (List.insertionSort (· ≤ ·) l).get ⟨m, hm⟩ = V := by
  have hperm2 := (List.perm_insertionSort (· ≤ ·) l).trans
    (perm_rep_rep_of_mem_pair V hVpos l hmem)
  have heq := List.eq_of_perm_of_sorted hperm2
    (List.sorted_insertionSort _ _) (sorted_rep_zero_rep _ _ _ hVpos.le)
  rw [List.get_eq_getElem, List.getElem_of_eq heq,
    List.getElem_append_right (by simpa using hcnt)]
  exact List.getElem_replicate ..

/-- One `equalize` pass maps its own output to itself. -/
theorem equalizeOne_idempotent (k d0 d1 shots : ℕ) (c r : List (String × ℚ))
    (h : equalizeOne k d0 d1 shots c = some r) :
    equalizeOne k d0 d1 shots r = some r := by
  rw [equalizeOne] at h
  split at h
  case isFalse => exact absurd h (by simp)
  case isTrue hm0 =>
    set m := 2 ^ (k - 1) with hmdef
    set V := equalizeVal d0 d1 shots with hVdef
    set cutoff := (List.insertionSort (· ≤ ·) (c.map Prod.snd)).get
      ⟨m, hm0⟩ with hcutdef
    have hr : r = c.map (fun p => (p.1, if p.2 < cutoff then 0 else V)) :=
      (Option.some.inj h).symm
    subst hr
    set f : String × ℚ → String × ℚ :=
      (fun p => (p.1, if p.2 < cutoff then 0 else V)) with hfdef
    have hlen0 : (List.insertionSort (· ≤ ·) (c.map Prod.snd)).length =
        c.length := by
      rw [(List.perm_insertionSort _ _).length_eq, List.length_map]
    have hmc : m < c.length := hlen0 ▸ hm0
    have hvals' : (c.map f).map Prod.snd =
        (c.map Prod.snd).map (fun v => if v < cutoff then 0 else V) := by
      simp [hfdef, List.map_map, Function.comp_def]
    have hlen' : (List.insertionSort (· ≤ ·) ((c.map f).map Prod.snd)).length =
        c.length := by
      rw [(List.perm_insertionSort _ _).length_eq, List.length_map,
        List.length_map]
    have hm' : m < (List.insertionSort (· ≤ ·)
        ((c.map f).map Prod.snd)).length := hlen'.symm ▸ hmc
    rw [equalizeOne, dif_pos hm']
    rcases eq_or_lt_of_le (equalizeVal_nonneg d0 d1 shots) with hV0 | hVpos
    · have hV0' : V = 0 := hVdef.trans hV0.symm
      have hf0 : f = (fun p : String × ℚ => (p.1, (0 : ℚ))) := by
        funext p
        show (p.1, if p.2 < cutoff then 0 else V) = (p.1, 0)
        rw [hV0', ite_self]
      have hg0 : (fun p : String × ℚ =>
          (p.1, if p.2 < (List.insertionSort (· ≤ ·)
            ((c.map f).map Prod.snd)).get ⟨m, hm'⟩ then 0 else V)) =
          (fun p : String × ℚ => (p.1, (0 : ℚ))) := by
        funext p
        rw [hV0', ite_self]
      rw [hg0, hf0]
      simp [List.map_map, Function.comp_def]
    · have hVpos' : (0 : ℚ) < V := hVdef ▸ hVpos
      have hcnt : ((c.map f).map Prod.snd).countP
          (fun x => decide (x < V)) ≤ m := by
        have h1 : ((c.map f).map Prod.snd).countP (fun x => decide (x < V)) =
            (c.map Prod.snd).countP (fun v => decide (v < cutoff)) := by
          rw [hvals', List.countP_map]
          congr 1
          funext v
          by_cases hv : v < cutoff
          · simp [hv, hVpos']
          · simp [hv, lt_irrefl]
        rw [h1, ← (List.perm_insertionSort (· ≤ ·)
          (c.map Prod.snd)).countP_eq]
        exact countP_lt_get_le_index _ (List.sorted_insertionSort _ _) m hm0
      have hmem' : ∀ x ∈ (c.map f).map Prod.snd, x = 0 ∨ x = V := by
        intro x hx
        rw [hvals'] at hx
        simp only [List.mem_map] at hx
        obtain ⟨v, hv, rfl⟩ := hx
        by_cases hvc : v < cutoff
        · exact Or.inl (by simp [hvc])
        · exact Or.inr (by simp [hvc])
      have hcut' : (List.insertionSort (· ≤ ·)
          ((c.map f).map Prod.snd)).get ⟨m, hm'⟩ = V :=
        sorted_get_of_mem_pair V hVpos' _ hmem' m hm' hcnt
      have hgf : (fun p : String × ℚ =>
          (p.1, if p.2 < (List.insertionSort (· ≤ ·)
            ((c.map f).map Prod.snd)).get ⟨m, hm'⟩ then 0 else V)) ∘ f = f := by
        funext p
        simp only [Function.comp_apply, hcut']
        show ((f p).1, if (f p).2 < V then 0 else V) = f p
        by_cases hvc : p.2 < cutoff
        · have hfp : f p = (p.1, 0) := by
            show (p.1, if p.2 < cutoff then 0 else V) = (p.1, 0)
            rw [if_pos hvc]
          rw [hfp]
          simp [hVpos']
        · have hfp : f p = (p.1, V) := by
            show (p.1, if p.2 < cutoff then 0 else V) = (p.1, V)
            rw [if_neg hvc]
          rw [hfp]
          simp [lt_irrefl]
      rw [List.map_map, hgf]

/-- Whether one `equalize` pass is defined depends only on the histogram's
entry count: the sorted-value index exists iff there are more than
`2 ^ (k - 1)` entries. -/
theorem equalizeOne_isSome_iff (k d0 d1 shots : ℕ)
    (c : List (String × ℚ)) :
    (equalizeOne k d0 d1 shots c).isSome = true ↔
      2 ^ (k - 1) < c.length := by
  have hlen : (List.insertionSort (· ≤ ·) (c.map Prod.snd)).length =
      c.length := by
    rw [(List.perm_insertionSort _ _).length_eq, List.length_map]
  rw [equalizeOne]
  split
  case isTrue hcond => simpa using hlen ▸ hcond
  case isFalse hcond =>
      simp only [Option.isSome_none, Bool.false_eq_true, false_iff, not_lt]
      exact not_lt.mp (hlen ▸ hcond)

/-- `equalize` succeeds exactly when every histogram has more than
`2 ^ (k - 1)` entries. -/
theorem equalize_isSome_iff (k d0 d1 shots : ℕ)
    (counts : List (List (String × ℚ))) :
    (equalize k d0 d1 shots counts).isSome = true ↔
      ∀ c ∈ counts, 2 ^ (k - 1) < c.length := by
  induction counts with
  | nil => simp [equalize]
  | cons c cs ih =>
      rw [equalize, List.forall_mem_cons, ← ih,
        ← equalizeOne_isSome_iff k d0 d1 shots c]
      cases h1 : equalizeOne k d0 d1 shots c <;>
        cases h2 : equalize k d0 d1 shots cs <;> simp

/-- C7: the Equalizer is idempotent on its domain: whenever
`equalize` succeeds, applying it again to the result succeeds and returns
the result unchanged. -/
theorem equalize_idempotent (k d0 d1 shots : ℕ)
    (counts r : List (List (String × ℚ)))
    (h : equalize k d0 d1 shots counts = some r) :
    equalize k d0 d1 shots r = some r := by
  induction counts generalizing r with
  | nil =>
      rw [equalize] at h
      obtain rfl : r = [] := (Option.some.inj h).symm
      rfl
  | cons c cs ih =>
      rw [equalize] at h
      cases h1 : equalizeOne k d0 d1 shots c with
      | none => rw [h1] at h; simp at h
      | some rc =>
          cases h2 : equalize k d0 d1 shots cs with
          | none => rw [h1, h2] at h; simp at h
          | some rcs =>
              rw [h1, h2] at h
              obtain rfl : r = rc :: rcs := (Option.some.inj h).symm
              rw [equalize, equalizeOne_idempotent k d0 d1 shots c rc h1,
                ih rcs h2]

/-- C7 witness: the spec's worked example (k = 2, 2x2 lattice, 16 shots):
the first pass gives counts 0/8/0/8 and the second pass returns the same. -/
theorem equalize_idempotent_witness :
    equalize 2 2 2 16 [[("00", 0), ("01", 8), ("10", 0), ("11", 8)]] =
      some [[("00", 0), ("01", 8), ("10", 0), ("11", 8)]] :=
  equalize_idempotent 2 2 2 16
    [[("00", 10), ("01", 30), ("10", 5), ("11", 55)]]
    [[("00", 0), ("01", 8), ("10", 0), ("11", 8)]]
    (by
      have hsort : List.insertionSort (· ≤ ·) ((10 : ℚ) :: [30, 5, 55]) =
          [5, 10, 30, 55] := by
        norm_num [List.insertionSort, List.orderedInsert]
      norm_num [equalize, equalizeOne, equalizeVal, hsort, List.get])

/-- C9: `equalize` is partial: it succeeds precisely when every input
histogram has strictly more than `2 ^ (k - 1)` entries, and any histogram
with at most `2 ^ (k - 1)` entries makes the whole call fail (the model of
the `IndexError` raised by the cutoff index). -/
theorem equalize_domain_iff (k d0 d1 shots : ℕ)
    (counts : List (List (String × ℚ))) :
    ((equalize k d0 d1 shots counts).isSome = true ↔
        ∀ c ∈ counts, 2 ^ (k - 1) < c.length) ∧
      ((∃ c ∈ counts, c.length ≤ 2 ^ (k - 1)) →
        equalize k d0 d1 shots counts = none) := by
  refine ⟨equalize_isSome_iff k d0 d1 shots counts, ?_⟩
  rintro ⟨c, hc, hle⟩
  rcases hnone : equalize k d0 d1 shots counts with _ | r
  · rfl
  · exact absurd (((equalize_isSome_iff k d0 d1 shots counts).mp
      (by rw [hnone]; rfl)) c hc) (not_lt.mpr hle)

/-- C9 witness: a two-entry histogram with k = 2 measured qubits makes
`equalize` fail. -/
theorem equalize_domain_iff_witness :
    equalize 2 2 2 16 [[("00", 10), ("01", 30)]] = none :=
  (equalize_domain_iff 2 2 2 16 [[("00", 10), ("01", 30)]]).2
    ⟨[("00", 10), ("01", 30)], by simp, by norm_num⟩
